import Mathlib

/-!
Verification of the region-detection engine and bounded frame queue of an
RTSP licence-plate reader (TypeScript).  The definitions below are shallow
embeddings of the functions in `src/index.ts` (and their twins in
`src/src/utils/regionUtils.ts` / `src/src/utils/queue.ts`):

* `floodFill`        — iterative flood fill with an explicit stack;
* `getBoundingBox`   — min/max bounding box of a component;
* `calculateOverlap` — overlap ratio of two axis-aligned boxes;
* `filterOverlappingRegions` — all-pairs overlap filter;
* `findRegions`      — raster scan + area/aspect filtering + confidence;
* `QState`/`enqueue`/`drainStart`/`completeFrame` — the `FrameQueue` class.

JavaScript numbers are modelled by `ℤ` (pixel coordinates, box sizes) and
`ℚ` (thresholds, ratios, confidences); all values reached in this
development are small integers or exact rationals, far below any float-53
rounding boundary.  Division by zero (JS `NaN`/`Infinity`) is handled
explicitly where it can occur: see the comments at `ratioAccept` and
`calculateOverlap`.
-/

/-- A detected region: the axis-aligned bounding box of a connected
component plus its confidence score, as in `src/index.ts` (`Region`). -/
structure Region where
  x : ℤ
  y : ℤ
  width : ℤ
  height : ℤ
  confidence : ℚ
deriving DecidableEq, Repr, Inhabited

/-- Detection thresholds, as in `DetectionConfig` of the source.  The
aspect-ratio fields are named `minAspect`/`maxAspect` here. -/
structure DetectionConfig where
  minArea : ℚ
  maxArea : ℚ
  minAspect : ℚ
  maxAspect : ℚ
deriving DecidableEq, Repr

/-- Linear index `y*width + x` of a coordinate pair, as used by the source
(`const pos = cy * width + cx`).  Out-of-bounds pairs are only ever used
after the bounds check, so the `toNat` clamp is never observed. -/
def encPos (w : ℕ) (c : ℤ × ℤ) : ℕ := (c.2 * w + c.1).toNat

/-- In-bounds predicate of the source's flood-fill guard
(`cx < 0 || cx >= width || cy < 0 || cy >= height`, negated). -/
def inBoundsC (w h : ℕ) (c : ℤ × ℤ) : Prop :=
  0 ≤ c.1 ∧ c.1 < (w : ℤ) ∧ 0 ≤ c.2 ∧ c.2 < (h : ℤ)

instance (w h : ℕ) (c : ℤ × ℤ) : Decidable (inBoundsC w h c) := by
  unfold inBoundsC; infer_instance

/-- A pixel is foreground when it is in bounds and its mask byte is `0`
(`data[pos] === 0`). -/
def foregroundC (data : ℕ → ℕ) (w h : ℕ) (c : ℤ × ℤ) : Prop :=
  inBoundsC w h c ∧ data (encPos w c) = 0

instance (data : ℕ → ℕ) (w h : ℕ) (c : ℤ × ℤ) : Decidable (foregroundC data w h c) := by
  unfold foregroundC; exact instDecidableAnd

/-- One step of the `while (stack.length > 0)` loop of `floodFill`,
recursing on explicit fuel.  The stack's head is the array's top (the JS
`pop` takes the most recently pushed `{x, y-1}` first, so the four pushes
appear here in reverse).  `none` means the fuel ran out; the theorem
`floodFillAux_total` shows the fuel chosen by `floodFill` below
never does. -/
def floodFillAux (data : ℕ → ℕ) (w h : ℕ) :
    ℕ → List (ℤ × ℤ) → Finset ℕ → Finset ℕ → Option (Finset ℕ × Finset ℕ)
  | 0, _, _, _ => none
  | _ + 1, [], visited, region => some (visited, region)
  | fuel + 1, c :: rest, visited, region =>
    if c.1 < 0 ∨ (w : ℤ) ≤ c.1 ∨ c.2 < 0 ∨ (h : ℤ) ≤ c.2 then
      floodFillAux data w h fuel rest visited region
    else
      let pos := encPos w c
      if pos ∈ visited ∨ data pos ≠ 0 then
        floodFillAux data w h fuel rest visited region
      else
        floodFillAux data w h fuel
          ((c.1, c.2 - 1) :: (c.1, c.2 + 1) :: (c.1 - 1, c.2) :: (c.1 + 1, c.2) :: rest)
          (insert pos visited) (insert pos region)

/-- Fuel that `floodFillAux_total` proves sufficient for any run:
every productive iteration removes one in-bounds position from the pool of
unvisited ones and costs at most five loop turns. -/
def floodFillFuel (w h : ℕ) : ℕ := 5 * (w * h) + 2

/-- `floodFill(data, width, height, x, y, visited)` of the source: returns
the updated visited set and the component found from the seed.  The
`getD` fallback is dead code by `floodFillAux_total`. -/
def floodFill (data : ℕ → ℕ) (w h : ℕ) (x y : ℤ) (visited : Finset ℕ) :
    Finset ℕ × Finset ℕ :=
  (floodFillAux data w h (floodFillFuel w h) [(x, y)] visited ∅).getD (visited, ∅)

/-- `getBoundingBox(region, width)` of the source.  The JS loop folds
`Math.min`/`Math.max` starting from `±Infinity`; for the nonempty sets the
detector produces this is the minimum and maximum of `pos % width` and
`floor(pos / width)`.  (On an empty set the JS code would produce `NaN`
fields; the detector never calls it on one, and the `0` defaults here are
likewise never observed.) -/
def getBoundingBox (region : Finset ℕ) (width : ℕ) : Region :=
  let xs := region.image fun pos => pos % width
  let ys := region.image fun pos => pos / width
  let minX : ℕ := xs.min.untop' 0
  let maxX : ℕ := xs.max.unbot' 0
  let minY : ℕ := ys.min.untop' 0
  let maxY : ℕ := ys.max.unbot' 0
  { x := (minX : ℤ), y := (minY : ℤ), width := (maxX : ℤ) - (minX : ℤ),
    height := (maxY : ℤ) - (minY : ℤ), confidence := 0 }

/-- The source compares `aspectRatio = width / height` against the two
bounds with IEEE semantics: when `height = 0` the ratio is `NaN` (if
`width = 0`) or `+Infinity`, and in both cases one of
`ratio >= min`, `ratio <= max` is false against the finite configured
bounds, so the region is rejected; otherwise the float comparison agrees
with the exact rational one at these magnitudes. -/
def ratioAccept (wd ht : ℤ) (lo hi : ℚ) : Bool :=
  if ht = 0 then false
  else decide (lo ≤ (wd : ℚ) / (ht : ℚ)) && decide ((wd : ℚ) / (ht : ℚ) ≤ hi)

/-- `calculateOverlap(r1, r2)` of the source: intersection area divided by
the smaller box area.  When the divisor is `0` one of the two boxes has a
zero-length side, which forces the intersection area to `0` as well (see
`calculateOverlap_zero_of_degenerate` below); JS then yields `NaN`, which
fails the `> 0.5` test exactly as the `0` produced by rational division
by zero does, so the filter below is unaffected. -/
def calculateOverlap (r1 r2 : Region) : ℚ :=
  let xOverlap := max 0 (min (r1.x + r1.width) (r2.x + r2.width) - max r1.x r2.x)
  let yOverlap := max 0 (min (r1.y + r1.height) (r2.y + r2.height) - max r1.y r2.y)
  let overlapArea := xOverlap * yOverlap
  let r1Area := r1.width * r1.height
  let r2Area := r2.width * r2.height
  (overlapArea : ℚ) / ((min r1Area r2Area : ℤ) : ℚ)

/-- Placeholder for the out-of-range `regions[i]` access that the source's
loops never perform. -/
def defaultRegion : Region := ⟨0, 0, 0, 0, 0⟩

/-- The predicate of the `regions.filter((region, index) => ...)` callback
in `filterOverlappingRegions` of `src/index.ts`: keep `r` (at `idx`)
unless some other index overlaps it above `0.5`. -/
def keepRegion (regions : List Region) (idx : ℕ) (r : Region) : Bool :=
  (List.range regions.length).all fun i =>
    i == idx || ! decide ((1 : ℚ) / 2 < calculateOverlap r (regions.getD i defaultRegion))

/-- `filterOverlappingRegions(regions)` of `src/index.ts`: an indexed
filter over the input list. -/
def filterOverlappingRegions (regions : List Region) : List Region :=
  (regions.enum.filter fun p => keepRegion regions p.1 p.2).map Prod.snd

/-- The §4.3 wording of the spec, stated independently of the code: keep a
region iff its overlap ratio with every other region of the list is at
most `0.5`. -/
def filterOverlappingRegionsSpec (regions : List Region) : List Region :=
  (regions.enum.filter fun p =>
    decide (∀ j, j < regions.length → j ≠ p.1 →
      calculateOverlap p.2 (regions.getD j defaultRegion) ≤ 1 / 2)).map Prod.snd

/-- Row-major raster-scan order of `findRegions`' two nested loops. -/
def scanPositions (w h : ℕ) : List (ℕ × ℕ) :=
  (List.range h).map (fun y => (List.range w).map fun x => (x, y)) |>.flatten

/-- The body of `findRegions`' double loop for one position: seed a flood
fill on an unvisited foreground pixel, filter by area and aspect ratio,
assign the confidence, and thread the visited set. -/
def findRegionsStep (data : ℕ → ℕ) (width height : ℕ) (config : DetectionConfig)
    (st : Finset ℕ × List Region) (c : ℕ × ℕ) : Finset ℕ × List Region :=
  let pos := c.2 * width + c.1
  if data pos = 0 ∧ pos ∉ st.1 then
    let fl := floodFill data width height (c.1 : ℤ) (c.2 : ℤ) st.1
    let bounds := getBoundingBox fl.2 width
    let area := bounds.width * bounds.height
    if config.minArea ≤ (area : ℚ) ∧ (area : ℚ) ≤ config.maxArea ∧
        ratioAccept bounds.width bounds.height config.minAspect config.maxAspect = true then
      (fl.1, st.2 ++ [{ bounds with confidence := ((area : ℚ) / config.maxArea) * 100 }])
    else
      (fl.1, st.2)
  else st

/-- `findRegions(data, width, height, config)` of `src/index.ts`. -/
def findRegions (data : ℕ → ℕ) (width height : ℕ) (config : DetectionConfig) :
    List Region :=
  filterOverlappingRegions
    ((scanPositions width height).foldl (findRegionsStep data width height config)
      (∅, [])).2

/-! ### The frame queue (`FrameQueue` of `src/index.ts`)

Packets are identified by naturals; in the source each enqueued frame is a
distinct `Buffer` object, so distinct identifiers model reference
identity.  Single-threaded cooperative scheduling is modelled by the
atomic synchronous segments between `await` points: `enqueue` runs the
body of `processQueue` up to its first `await` (an `async` call in JS
executes synchronously until then), and `completeFrame` is the external
event of `processFrame` settling, followed by the `setImmediate`
re-entry of `processQueue`.  `delivered` records packets handed to
`processFrame` (in order), `evicted` the drop-oldest victims, and
`accepted` every packet that passed the shutdown check. -/
structure QState where
  queue : List ℕ
  processing : Bool
  inFlight : Bool
  delivered : List ℕ
  evicted : List ℕ
  accepted : List ℕ
  shuttingDown : Bool
deriving DecidableEq, Repr

/-- The queue as constructed: empty, idle, not shutting down. -/
def QState.start : QState := ⟨[], false, false, [], [], [], false⟩

/-- The synchronous prefix of `processQueue`: either stop (empty queue or
shutdown) or shift the oldest packet and hand it to `processFrame`. -/
def drainStart (s : QState) : QState :=
  if s.queue = [] ∨ s.shuttingDown then { s with processing := false }
  else
    { s with processing := true, inFlight := true,
             queue := s.queue.tail, delivered := s.delivered ++ s.queue.take 1 }

/-- `enqueue(buffer)` of the source: no-op under shutdown; otherwise evict
the oldest packet when full, append, and start the drain when idle. -/
def enqueue (maxSize : ℕ) (s : QState) (p : ℕ) : QState :=
  if s.shuttingDown then s
  else
    let s1 :=
      if maxSize ≤ s.queue.length then
        { s with queue := s.queue.tail, evicted := s.evicted ++ s.queue.take 1 }
      else s
    let s2 := { s1 with queue := s1.queue ++ [p], accepted := s1.accepted ++ [p] }
    if s2.processing then s2 else drainStart s2

/-- `processFrame` settling (successfully or with a caught error): the
in-flight packet is done and `processQueue` re-enters via `setImmediate`. -/
def completeFrame (s : QState) : QState :=
  if s.inFlight then drainStart { s with inFlight := false } else s

/-- External stimuli of one `FrameQueue` instance. -/
inductive QOp where
  | enq (p : ℕ)
  | complete
  | shut
deriving DecidableEq, Repr

/-- Apply one stimulus. -/
def applyOp (maxSize : ℕ) (s : QState) : QOp → QState
  | .enq p => enqueue maxSize s p
  | .complete => completeFrame s
  | .shut => { s with shuttingDown := true }

/-- Run a stimulus sequence from the freshly constructed queue. -/
def runQueue (maxSize : ℕ) (ops : List QOp) : QState :=
  ops.foldl (applyOp maxSize) QState.start

/-- The packets an operation sequence attempts to enqueue, in order. -/
def enqueuedList : List QOp → List ℕ
  | [] => []
  | .enq p :: rest => p :: enqueuedList rest
  | _ :: rest => enqueuedList rest

/-- The drain/eviction bookkeeping invariant: the packets handed to the
processing stage followed by the still-pending ones are exactly the
accepted packets, in arrival order, with the evicted ones removed; and
every evicted packet was indeed accepted. -/
def QInv (s : QState) : Prop :=
  s.delivered ++ s.queue = s.accepted.filter (fun q => decide (q ∉ s.evicted)) ∧
  ∀ q ∈ s.evicted, q ∈ s.accepted

/-- Four-neighbour adjacency of the flood fill (`x±1`, `y±1` pushes). -/
def adjC (a b : ℤ × ℤ) : Prop :=
  b = (a.1 + 1, a.2) ∨ b = (a.1 - 1, a.2) ∨ b = (a.1, a.2 + 1) ∨ b = (a.1, a.2 - 1)

/-- One step of 4-connectivity through foreground pixels. -/
def stepC (data : ℕ → ℕ) (w h : ℕ) (a b : ℤ × ℤ) : Prop :=
  foregroundC data w h a ∧ foregroundC data w h b ∧ adjC a b

/-- A pixel reachable from the seed through foreground pixels via
4-connectivity: the connected component of the seed. -/
def ReachC (data : ℕ → ℕ) (w h : ℕ) (s c : ℤ × ℤ) : Prop :=
  foregroundC data w h s ∧ Relation.ReflTransGen (stepC data w h) s c

/-- One step of 4-connectivity through foreground pixels that avoids the
positions of a given visited set. -/
def stepAvoidC (data : ℕ → ℕ) (w h : ℕ) (V : Finset ℕ) (a b : ℤ × ℤ) : Prop :=
  stepC data w h a b ∧ encPos w a ∉ V ∧ encPos w b ∉ V

/-- A pixel reachable from the seed through foreground pixels avoiding a
visited set. -/
def ReachAvoidC (data : ℕ → ℕ) (w h : ℕ) (V : Finset ℕ) (s c : ℤ × ℤ) : Prop :=
  foregroundC data w h s ∧ encPos w s ∉ V ∧
    Relation.ReflTransGen (stepAvoidC data w h V) s c

/-- The loop variant of the flood fill: five turns per still-unvisited
in-bounds position, plus one per stack entry. -/
def floodMeasure (w h : ℕ) (stack : List (ℤ × ℤ)) (visited : Finset ℕ) : ℕ :=
  5 * (Finset.range (w * h) \ visited).card + stack.length

/-- The 5×5 mask of the spec's Scenario 1: a 2×2 block of zero-value
pixels at rows and columns 1–2 (linear positions 6, 7, 11, 12),
every other pixel 255. -/
def maskScenario1 : ℕ → ℕ := fun p => if p = 6 ∨ p = 7 ∨ p = 11 ∨ p = 12 then 0 else 255

/-- The detection thresholds of the spec's Scenario 1. -/
def configScenario1 : DetectionConfig := ⟨1, 10, 1 / 2, 2⟩

/-- The region list of the spec's Scenario 3. -/
def regionsScenario3 : List Region :=
  [⟨0, 0, 4, 4, 0⟩, ⟨2, 2, 4, 4, 0⟩, ⟨5, 5, 2, 2, 0⟩]


/-- The loop invariant of the flood fill, relating the stack, the visited
set, and the region being grown to the initial visited set `v0` and the
seed `s`: the visited set is `v0` plus the region; every region member is
the code of a foreground pixel reachable from the seed avoiding `v0`;
every productive stack entry is so reachable; the region is closed under
4-neighbours up to the visited set and the stack; and the seed is still
on the stack or already in the region. -/
def FFInv (data : ℕ → ℕ) (w h : ℕ) (v0 : Finset ℕ) (s : ℤ × ℤ)
    (stack : List (ℤ × ℤ)) (visited region : Finset ℕ) : Prop :=
  visited = v0 ∪ region ∧
  (∀ p ∈ region, ∃ c, foregroundC data w h c ∧ encPos w c = p ∧
    ReachAvoidC data w h v0 s c) ∧
  (∀ c ∈ stack, foregroundC data w h c → encPos w c ∉ visited →
    ReachAvoidC data w h v0 s c) ∧
  (∀ c, foregroundC data w h c → encPos w c ∈ region →
    ∀ n, adjC c n → foregroundC data w h n → encPos w n ∈ visited ∨ n ∈ stack) ∧
  (s ∈ stack ∨ encPos w s ∈ region)

/-! ### Frame-queue lemmas -/

theorem drainStart_delivered_queue (s : QState) :
    (drainStart s).delivered ++ (drainStart s).queue = s.delivered ++ s.queue := by
  unfold drainStart
  split
  · rfl
  · simp only [List.append_assoc, ← List.drop_one, List.take_append_drop]

theorem drainStart_accepted (s : QState) : (drainStart s).accepted = s.accepted := by
  unfold drainStart; split <;> rfl

theorem drainStart_evicted (s : QState) : (drainStart s).evicted = s.evicted := by
  unfold drainStart; split <;> rfl

theorem drainStart_shut (s : QState) : (drainStart s).shuttingDown = s.shuttingDown := by
  unfold drainStart; split <;> rfl

theorem drainStart_queue_length (s : QState) :
    (drainStart s).queue.length ≤ s.queue.length := by
  unfold drainStart
  split
  · exact le_rfl
  · simp

theorem enqueue_queue_length (maxSize : ℕ) (s : QState) (p : ℕ) (hm : 1 ≤ maxSize)
    (hs : s.queue.length ≤ maxSize) :
    (enqueue maxSize s p).queue.length ≤ maxSize := by
  by_cases hsd : s.shuttingDown = true
  · simpa [enqueue, hsd] using hs
  · by_cases hful : maxSize ≤ s.queue.length <;>
      by_cases hp : s.processing = true
    · simp only [enqueue, hsd, hful, hp, if_true, if_false, ite_true, ite_false]
      simp
      omega
    · simp only [enqueue, hsd, hful, hp, if_true, if_false, ite_true, ite_false]
      refine le_trans (drainStart_queue_length _) ?_
      simp
      omega
    · simp only [enqueue, hsd, hful, hp, if_true, if_false, ite_true, ite_false]
      simp
      omega
    · simp only [enqueue, hsd, hful, hp, if_true, if_false, ite_true, ite_false]
      refine le_trans (drainStart_queue_length _) ?_
      simp
      omega

theorem applyOp_queue_length (maxSize : ℕ) (s : QState) (op : QOp) (hm : 1 ≤ maxSize)
    (hs : s.queue.length ≤ maxSize) :
    (applyOp maxSize s op).queue.length ≤ maxSize := by
  cases op with
  | enq p => exact enqueue_queue_length maxSize s p hm hs
  | complete =>
    show (completeFrame s).queue.length ≤ maxSize
    by_cases hf : s.inFlight = true
    · simp only [completeFrame, hf, if_true, ite_true]
      exact le_trans (drainStart_queue_length _) hs
    · simpa [completeFrame, hf] using hs
  | shut => exact hs

theorem foldl_queue_length (maxSize : ℕ) (ops : List QOp) :
    ∀ s : QState, 1 ≤ maxSize → s.queue.length ≤ maxSize →
      (ops.foldl (applyOp maxSize) s).queue.length ≤ maxSize := by
  induction ops with
  | nil => exact fun s _ hs => hs
  | cons op rest ih =>
    intro s hm hs
    exact ih (applyOp maxSize s op) hm (applyOp_queue_length maxSize s op hm hs)

theorem enqueue_onto_processing (maxSize : ℕ) (rest : List ℕ) :
    ∀ s : QState, s.processing = true → s.shuttingDown = false →
      s.queue.length + rest.length ≤ maxSize →
      (rest.map QOp.enq).foldl (applyOp maxSize) s =
        { s with queue := s.queue ++ rest, accepted := s.accepted ++ rest } := by
  induction rest with
  | nil => intro s _ _ _; simp
  | cons r tl ih =>
    intro s hp hsd hlen
    have hstep : applyOp maxSize s (QOp.enq r) =
        { s with queue := s.queue ++ [r], accepted := s.accepted ++ [r] } := by
      have hful : ¬ maxSize ≤ s.queue.length := by simp at hlen; omega
      simp [applyOp, enqueue, hsd, hful, hp]
    rw [List.map_cons, List.foldl_cons, hstep,
      ih _ (by simp [hp]) (by simp [hsd]) (by simp at hlen ⊢; omega)]
    simp

theorem QInv_drainStart (s : QState) (h : QInv s) : QInv (drainStart s) := by
  refine ⟨?_, ?_⟩
  · rw [drainStart_delivered_queue, drainStart_accepted, drainStart_evicted]
    exact h.1
  · rw [drainStart_evicted, drainStart_accepted]
    exact h.2

theorem QInv_evict (s : QState) (h : QInv s) (hnd : s.accepted.Nodup) :
    QInv { s with queue := s.queue.tail, evicted := s.evicted ++ s.queue.take 1 } := by
  rcases hq : s.queue with _ | ⟨a, qr⟩
  · have h1 := h.1
    rw [hq] at h1
    refine ⟨?_, ?_⟩
    · simpa using h1
    · simpa using h.2
  · have base : s.delivered ++ (a :: qr) =
        s.accepted.filter (fun q => decide (q ∉ s.evicted)) := hq ▸ h.1
    have hnd2 : (s.delivered ++ (a :: qr)).Nodup := by
      rw [base]; exact hnd.filter _
    have ha_del : a ∉ s.delivered := by
      have hdisj := (List.nodup_append.mp hnd2).2.2
      intro hmem
      exact hdisj hmem (List.mem_cons_self a qr)
    have ha_qr : a ∉ qr := (List.nodup_cons.mp (List.nodup_append.mp hnd2).2.1).1
    refine ⟨?_, ?_⟩
    · have hstep1 : s.delivered ++ qr =
          (s.delivered ++ (a :: qr)).filter (fun q => decide (q ≠ a)) := by
        rw [List.filter_append, List.filter_cons]
        have hself : (decide (a ≠ a)) = false := by simp
        rw [hself]
        simp only [Bool.false_eq_true, if_false, ite_false]
        rw [List.filter_eq_self.mpr, List.filter_eq_self.mpr]
        · intro b hb
          simp only [decide_eq_true_eq]
          intro hba
          exact ha_qr (hba ▸ hb)
        · intro b hb
          simp only [decide_eq_true_eq]
          intro hba
          exact ha_del (hba ▸ hb)
      have hstep2 : ∀ l : List ℕ,
          (l.filter (fun q => decide (q ∉ s.evicted))).filter (fun q => decide (q ≠ a))
            = l.filter (fun q => decide (q ∉ s.evicted ++ List.take 1 (a :: qr))) := by
        intro l
        rw [List.filter_filter]
        refine List.filter_congr fun q _ => ?_
        simp [List.mem_append, not_or, Bool.and_comm]
      show s.delivered ++ qr = _
      rw [hstep1, base, hstep2]
    · intro q hqmem
      rcases List.mem_append.mp hqmem with hql | hqr
      · exact h.2 q hql
      · have hqa : q = a := by simpa using hqr
        have hmm : q ∈ s.delivered ++ s.queue := by
          rw [hq, hqa]
          exact List.mem_append.mpr (Or.inr (List.mem_cons_self a qr))
        rw [h.1] at hmm
        exact (List.mem_filter.mp hmm).1

theorem QInv_push (s : QState) (p : ℕ) (h : QInv s) (hp : p ∉ s.accepted) :
    QInv { s with queue := s.queue ++ [p], accepted := s.accepted ++ [p] } := by
  have hpe : p ∉ s.evicted := fun hmem => hp (h.2 p hmem)
  have hfp : List.filter (fun q => decide (q ∉ s.evicted)) [p] = [p] := by
    simp [hpe]
  refine ⟨?_, ?_⟩
  · show s.delivered ++ (s.queue ++ [p]) = _
    rw [List.filter_append, hfp, ← h.1, List.append_assoc]
  · intro q hqmem
    exact List.mem_append.mpr (Or.inl (h.2 q hqmem))

theorem QInv_enqueue_step (maxSize : ℕ) (s : QState) (p : ℕ) (h : QInv s)
    (hnd : s.accepted.Nodup) (hp : p ∉ s.accepted) (hsd : ¬ s.shuttingDown = true) :
    QInv (enqueue maxSize s p) ∧ (enqueue maxSize s p).accepted = s.accepted ++ [p] := by
  by_cases hful : maxSize ≤ s.queue.length <;> by_cases hpr : s.processing = true
  · have e : enqueue maxSize s p = { s with queue := s.queue.tail ++ [p], evicted := s.evicted ++ s.queue.take 1, accepted := s.accepted ++ [p] } := by
      simp [enqueue, hsd, hful, hpr]
    rw [e]
    exact ⟨QInv_push _ p (QInv_evict s h hnd) hp, rfl⟩
  · have e : enqueue maxSize s p = drainStart { s with queue := s.queue.tail ++ [p], evicted := s.evicted ++ s.queue.take 1, accepted := s.accepted ++ [p] } := by
      simp [enqueue, hsd, hful, hpr]
    rw [e]
    refine ⟨QInv_drainStart _ (QInv_push _ p (QInv_evict s h hnd) hp), ?_⟩
    rw [drainStart_accepted]
  · have e : enqueue maxSize s p = { s with queue := s.queue ++ [p], accepted := s.accepted ++ [p] } := by
      simp [enqueue, hsd, hful, hpr]
    rw [e]
    exact ⟨QInv_push s p h hp, rfl⟩
  · have e : enqueue maxSize s p = drainStart { s with queue := s.queue ++ [p], accepted := s.accepted ++ [p] } := by
      simp [enqueue, hsd, hful, hpr]
    rw [e]
    refine ⟨QInv_drainStart _ (QInv_push s p h hp), ?_⟩
    rw [drainStart_accepted]

theorem completeFrame_accepted (s : QState) : (completeFrame s).accepted = s.accepted := by
  by_cases hf : s.inFlight = true <;>
    simp [completeFrame, hf, drainStart_accepted]

theorem QInv_completeFrame (s : QState) (h : QInv s) : QInv (completeFrame s) := by
  by_cases hf : s.inFlight = true
  · have e : completeFrame s = drainStart { s with inFlight := false } := by
      simp [completeFrame, hf]
    rw [e]
    exact QInv_drainStart _ ⟨h.1, h.2⟩
  · have e : completeFrame s = s := by simp [completeFrame, hf]
    rw [e]
    exact h

theorem QInv_foldl (maxSize : ℕ) (ops : List QOp) :
    ∀ s : QState, QInv s → s.accepted.Nodup →
      (∀ q ∈ enqueuedList ops, q ∉ s.accepted) → (enqueuedList ops).Nodup →
      QInv (ops.foldl (applyOp maxSize) s) := by
  induction ops with
  | nil => exact fun s h _ _ _ => h
  | cons op rest ih =>
    intro s h hnd hfresh hond
    rw [List.foldl_cons]
    cases op with
    | complete =>
      show QInv (rest.foldl (applyOp maxSize) (completeFrame s))
      refine ih _ (QInv_completeFrame s h) ?_ ?_ hond
      · rw [completeFrame_accepted]; exact hnd
      · rw [completeFrame_accepted]; exact hfresh
    | shut =>
      show QInv (rest.foldl (applyOp maxSize) { s with shuttingDown := true })
      exact ih _ ⟨h.1, h.2⟩ hnd hfresh hond
    | enq p =>
      show QInv (rest.foldl (applyOp maxSize) (enqueue maxSize s p))
      by_cases hsd : s.shuttingDown = true
      · have e : enqueue maxSize s p = s := by simp [enqueue, hsd]
        rw [e]
        refine ih s h hnd ?_ (List.nodup_cons.mp hond).2
        intro q hq
        exact hfresh q (by simp [enqueuedList, hq])
      · have hpfresh : p ∉ s.accepted := hfresh p (by simp [enqueuedList])
        obtain ⟨h2, hacc⟩ := QInv_enqueue_step maxSize s p h hnd hpfresh hsd
        refine ih _ h2 ?_ ?_ (List.nodup_cons.mp hond).2
        · rw [hacc]
          exact List.Nodup.append hnd (List.nodup_singleton p) (by simpa using hpfresh)
        · intro q hq
          rw [hacc]
          have hqp : q ≠ p := fun hqe => (List.nodup_cons.mp hond).1 (hqe ▸ hq)
          have hqa : q ∉ s.accepted := hfresh q (by simp [enqueuedList, hq])
          simp [hqa, hqp]

/-! ### Claim theorems for the frame queue -/

/-- C8: when the shutdown flag is set, `enqueue` is a no-op: it returns
without error, leaves the whole queue state unchanged (in particular the
queue contents), and starts no drain. -/
theorem enqueue_shutdown_noop (maxSize : ℕ) (s : QState) (p : ℕ)
    (h : s.shuttingDown = true) : enqueue maxSize s p = s := by
  simp [enqueue, h]

/-- Witness for `enqueue_shutdown_noop` at a concrete shut-down state. -/
theorem enqueue_shutdown_noop_check :
    enqueue 30 ⟨[3, 4], false, false, [1], [2], [1, 2, 3, 4], true⟩ 7 =
      ⟨[3, 4], false, false, [1], [2], [1, 2, 3, 4], true⟩ :=
  enqueue_shutdown_noop 30 ⟨[3, 4], false, false, [1], [2], [1, 2, 3, 4], true⟩ 7 rfl

/-- C7 counterexample: enqueuing `maxSize + 1 = 3` packets into a fresh
queue of capacity `2` evicts nothing — the claim asserts the first packet
is evicted, but the drain loop starts synchronously on the first enqueue
and hands packet `1` to the processing stage, so the queue never reaches
its capacity during an enqueue; the final queue is `[2, 3]` (length
`maxSize`, as claimed). -/
theorem frameQueue_no_eviction_on_fill :
    (runQueue 2 [QOp.enq 1, QOp.enq 2, QOp.enq 3]).evicted = [] ∧
    (runQueue 2 [QOp.enq 1, QOp.enq 2, QOp.enq 3]).delivered = [1] ∧
    (runQueue 2 [QOp.enq 1, QOp.enq 2, QOp.enq 3]).queue = [2, 3] := by
  decide

/-- C7 (amended): no enqueue ever leaves the queue above its capacity
(for a positive capacity), and enqueuing `maxSize + 1` packets into a
fresh idle queue leaves exactly `maxSize` packets pending in arrival
order — but the absent packet, the first one, was handed to the
processing stage by the drain that starts on the first enqueue, not
evicted (no eviction at all occurs). -/
theorem frameQueue_capacity_bound :
    (∀ (maxSize : ℕ) (ops : List QOp), 1 ≤ maxSize →
      (runQueue maxSize ops).queue.length ≤ maxSize) ∧
    (∀ (m p : ℕ) (rest : List ℕ), 1 ≤ m → rest.length = m →
      runQueue m ((p :: rest).map QOp.enq) =
        ⟨rest, true, true, [p], [], p :: rest, false⟩) := by
  constructor
  · intro maxSize ops hm
    exact foldl_queue_length maxSize ops QState.start hm (by simp [QState.start])
  · intro m p rest hm hlen
    have h0 : ¬ m ≤ (QState.start).queue.length := by simp [QState.start]; omega
    have e1 : applyOp m QState.start (QOp.enq p)
        = ⟨[], true, true, [p], [], [p], false⟩ := by
      simp [applyOp, enqueue, QState.start, h0, drainStart]
    show (QOp.enq p :: rest.map QOp.enq).foldl (applyOp m) QState.start = _
    rw [List.foldl_cons, e1, enqueue_onto_processing m rest
      ⟨[], true, true, [p], [], [p], false⟩ rfl rfl (by simpa using hlen.le)]
    simp

/-- Witness for `frameQueue_capacity_bound` at concrete inputs. -/
theorem frameQueue_capacity_bound_check :
    (runQueue 2 [QOp.enq 5]).queue.length ≤ 2 ∧
    runQueue 1 ((4 :: [9]).map QOp.enq) = ⟨[9], true, true, [4], [], [4, 9], false⟩ :=
  ⟨frameQueue_capacity_bound.1 2 [QOp.enq 5] (by decide),
   frameQueue_capacity_bound.2 1 4 [9] (by decide) (by decide)⟩

/-- C9: over any stimulus sequence whose enqueued packets are pairwise
distinct (buffers are distinct objects in the source), the packets handed
to the processing stage followed by the still-pending ones are exactly
the accepted packets in arrival order with the evicted ones removed — so
delivery respects enqueue order among packets that survive eviction —
and no evicted packet was ever one already handed to processing. -/
theorem frameQueue_fifo_order (maxSize : ℕ) (ops : List QOp)
    (h : (enqueuedList ops).Nodup) :
    (runQueue maxSize ops).delivered ++ (runQueue maxSize ops).queue
      = (runQueue maxSize ops).accepted.filter
          (fun q => decide (q ∉ (runQueue maxSize ops).evicted)) ∧
    ∀ q ∈ (runQueue maxSize ops).evicted, q ∉ (runQueue maxSize ops).delivered := by
  have hinv : QInv (runQueue maxSize ops) := by
    refine QInv_foldl maxSize ops QState.start ⟨rfl, ?_⟩ ?_ ?_ h
    · intro q hq
      simp [QState.start] at hq
    · simp [QState.start]
    · intro q _
      simp [QState.start]
  refine ⟨hinv.1, ?_⟩
  intro q hqe hqd
  have hmem : q ∈ (runQueue maxSize ops).delivered ++ (runQueue maxSize ops).queue :=
    List.mem_append.mpr (Or.inl hqd)
  rw [hinv.1] at hmem
  have := (List.mem_filter.mp hmem).2
  simp at this
  exact this hqe

/-- Witness for `frameQueue_fifo_order` on a run with an eviction. -/
theorem frameQueue_fifo_order_check :
    (runQueue 1 [QOp.enq 1, QOp.enq 2, QOp.enq 3]).delivered
        ++ (runQueue 1 [QOp.enq 1, QOp.enq 2, QOp.enq 3]).queue
      = (runQueue 1 [QOp.enq 1, QOp.enq 2, QOp.enq 3]).accepted.filter
          (fun q => decide (q ∉ (runQueue 1 [QOp.enq 1, QOp.enq 2, QOp.enq 3]).evicted)) ∧
    ∀ q ∈ (runQueue 1 [QOp.enq 1, QOp.enq 2, QOp.enq 3]).evicted,
      q ∉ (runQueue 1 [QOp.enq 1, QOp.enq 2, QOp.enq 3]).delivered :=
  frameQueue_fifo_order 1 [QOp.enq 1, QOp.enq 2, QOp.enq 3] (by decide)

/-! ### Overlap-filter lemmas -/

theorem keepRegion_iff (regions : List Region) (idx : ℕ) (r : Region) :
    keepRegion regions idx r = true ↔
      ∀ j, j < regions.length → j ≠ idx →
        calculateOverlap r (regions.getD j defaultRegion) ≤ 1 / 2 := by
  simp [keepRegion, List.all_eq_true, List.mem_range, or_iff_not_imp_left, not_lt]

theorem keepRegion_eq_decide (regions : List Region) (idx : ℕ) (r : Region) :
    keepRegion regions idx r
      = decide (∀ j, j < regions.length → j ≠ idx →
          calculateOverlap r (regions.getD j defaultRegion) ≤ 1 / 2) := by
  by_cases hP : ∀ j, j < regions.length → j ≠ idx →
      calculateOverlap r (regions.getD j defaultRegion) ≤ 1 / 2
  · rw [decide_eq_true hP, (keepRegion_iff regions idx r).mpr hP]
  · rw [decide_eq_false hP]
    exact Bool.eq_false_iff.mpr fun hk => hP ((keepRegion_iff regions idx r).mp hk)

/-- C2: the indexed filter of the source returns exactly the regions whose
overlap ratio with every other position of the input list is at most
`0.5` (the spec-side formulation `filterOverlappingRegionsSpec`); lists of
length at most one come back unchanged; and whenever two positions
mutually overlap above the threshold, the region at either position is
dropped. -/
theorem filterOverlapping_matches_spec (regions : List Region) :
    filterOverlappingRegions regions = filterOverlappingRegionsSpec regions ∧
    (regions.length ≤ 1 → filterOverlappingRegions regions = regions) ∧
    (∀ i j (hi : i < regions.length) (hj : j < regions.length), i ≠ j →
      1 / 2 < calculateOverlap (regions.get ⟨i, hi⟩) (regions.get ⟨j, hj⟩) →
      regions.get ⟨i, hi⟩ ∉ filterOverlappingRegions regions) := by
  refine ⟨?_, ?_, ?_⟩
  · exact congrArg (List.map Prod.snd)
      (List.filter_congr fun p _ => keepRegion_eq_decide regions p.1 p.2)
  · intro hlen
    rcases regions with _ | ⟨a, _ | ⟨b, t⟩⟩
    · rfl
    · rfl
    · simp at hlen
  · intro i j hi hj hij hov hmem
    obtain ⟨p, hpf, hpsnd⟩ := List.mem_map.mp hmem
    have hpk := List.mem_filter.mp hpf
    have hget : regions.get? p.1 = some p.2 := List.mem_enum_iff_get?.mp hpk.1
    obtain ⟨hp1, hp2⟩ := List.get?_eq_some.mp hget
    have hkeep := (keepRegion_iff regions p.1 p.2).mp hpk.2
    by_cases hpj : p.1 = j
    · have hvj : p.2 = regions.get ⟨j, hj⟩ := by
        subst hpj
        exact hp2.symm
      have hle := hkeep i hi (fun hii => hij (hii ▸ hpj.symm ▸ rfl))
      rw [List.getD_eq_get regions defaultRegion hi] at hle
      rw [hpsnd] at hvj
      rw [← hvj] at hov
      rw [hpsnd] at hle
      exact absurd hle (not_le.mpr hov)
    · have hle := hkeep j hj fun hjj => hpj hjj.symm
      rw [List.getD_eq_get regions defaultRegion hj] at hle
      rw [hpsnd] at hle
      exact absurd hle (not_le.mpr hov)

/-- Witness for `filterOverlapping_matches_spec`: a singleton comes back
unchanged, and a duplicated box (self-overlap `1`) is dropped. -/
theorem filterOverlapping_matches_spec_check :
    filterOverlappingRegions [defaultRegion] = [defaultRegion] ∧
    [Region.mk 0 0 4 4 0, Region.mk 0 0 4 4 0].get ⟨0, by decide⟩ ∉
      filterOverlappingRegions [Region.mk 0 0 4 4 0, Region.mk 0 0 4 4 0] :=
  ⟨(filterOverlapping_matches_spec [defaultRegion]).2.1 (by decide),
   (filterOverlapping_matches_spec [Region.mk 0 0 4 4 0, Region.mk 0 0 4 4 0]).2.2
     0 1 (by decide) (by decide) (by decide) (by with_unfolding_all decide)⟩

/-- C4 counterexample: the Scenario 3 list does not deduplicate to a
2-element set and neither member of the overlapping pair is excluded —
the pair's overlap ratio is `0.25`, below the `0.5` threshold (exactly as
the spec's own Scenario 2 computes), so the filter keeps all three
regions. -/
theorem scenario3_not_dedup_to_two :
    (filterOverlappingRegions regionsScenario3).length = 3 ∧
    Region.mk 0 0 4 4 0 ∈ filterOverlappingRegions regionsScenario3 ∧
    Region.mk 2 2 4 4 0 ∈ filterOverlappingRegions regionsScenario3 := by
  with_unfolding_all decide

/-- C4 (amended): on the Scenario 3 list the filter is the identity — the
first pair's overlap ratio is `1/4 ≤ 1/2`, so nothing is dropped and all
three regions are returned. -/
theorem scenario3_filter_eval :
    filterOverlappingRegions regionsScenario3 = regionsScenario3 ∧
    calculateOverlap ⟨0, 0, 4, 4, 0⟩ ⟨2, 2, 4, 4, 0⟩ = 1 / 4 := by
  with_unfolding_all decide

/-- C3: evaluating the detector on the Scenario 1 mask (a 2×2 foreground
block at rows/columns 1–2 of a 5×5 mask).  The repository's own test
(`regionUtils` suite, first case) asserts the result
`{x:1, y:1, width:2, height:2}`, but `getBoundingBox` computes
`width = maxX - minX` without the customary `+1`, so the detector returns
a single box of width and height `1` (confidence `(1/10)*100 = 10`) and
no returned region is 2×2. -/
theorem findRegions_scenario1_eval :
    findRegions maskScenario1 5 5 configScenario1 = [⟨1, 1, 1, 1, 10⟩] ∧
    ∀ r ∈ findRegions maskScenario1 5 5 configScenario1,
      ¬(r.width = 2 ∧ r.height = 2) := by
  with_unfolding_all decide

/-! ### Flood-fill lemmas -/

theorem encPos_lt (w h : ℕ) (c : ℤ × ℤ) (hc : inBoundsC w h c) : encPos w c < w * h := by
  obtain ⟨h1, h2, h3, h4⟩ := hc
  have hlt : c.2 * (w : ℤ) + c.1 < (w : ℤ) * (h : ℤ) := by
    calc c.2 * (w : ℤ) + c.1 < c.2 * (w : ℤ) + (w : ℤ) := by omega
    _ = (c.2 + 1) * (w : ℤ) := by ring
    _ ≤ (h : ℤ) * (w : ℤ) := by
        exact mul_le_mul_of_nonneg_right (by omega) (by positivity)
    _ = (w : ℤ) * (h : ℤ) := by ring
  have h0 : (0 : ℤ) ≤ c.2 * (w : ℤ) + c.1 := by positivity
  unfold encPos
  exact (Int.toNat_lt h0).mpr (by exact_mod_cast hlt)

theorem encPos_inj (w h : ℕ) (a b : ℤ × ℤ) (ha : inBoundsC w h a) (hb : inBoundsC w h b)
    (he : encPos w a = encPos w b) : a = b := by
  obtain ⟨ha1, ha2, ha3, ha4⟩ := ha
  obtain ⟨hb1, hb2, hb3, hb4⟩ := hb
  have h0a : (0 : ℤ) ≤ a.2 * (w : ℤ) + a.1 := by positivity
  have h0b : (0 : ℤ) ≤ b.2 * (w : ℤ) + b.1 := by positivity
  have heq : a.2 * (w : ℤ) + a.1 = b.2 * (w : ℤ) + b.1 := by
    rw [← Int.toNat_of_nonneg h0a, ← Int.toNat_of_nonneg h0b]
    exact_mod_cast he
  have hw0 : (0 : ℤ) < (w : ℤ) := lt_of_le_of_lt ha1 ha2
  have hmod : a.1 = b.1 := by
    have hma : (a.1 + a.2 * (w : ℤ)) % (w : ℤ) = a.1 := by
      rw [Int.add_mul_emod_self]
      exact Int.emod_eq_of_lt ha1 ha2
    have hmb : (b.1 + b.2 * (w : ℤ)) % (w : ℤ) = b.1 := by
      rw [Int.add_mul_emod_self]
      exact Int.emod_eq_of_lt hb1 hb2
    rw [← hma, ← hmb]
    congr 1
    omega
  have hdiv : a.2 = b.2 := by
    have : a.2 * (w : ℤ) = b.2 * (w : ℤ) := by omega
    exact mul_right_cancel₀ (by omega) this
  exact Prod.ext hmod hdiv

theorem floodFillAux_total (data : ℕ → ℕ) (w h : ℕ) :
    ∀ (fuel : ℕ) (stack : List (ℤ × ℤ)) (visited region : Finset ℕ),
      floodMeasure w h stack visited < fuel →
      ∃ res, floodFillAux data w h fuel stack visited region = some res := by
  intro fuel
  induction fuel with
  | zero => exact fun stack visited region hm => absurd hm (Nat.not_lt_zero _)
  | succ n ih =>
    intro stack visited region hm
    match stack with
    | [] => exact ⟨(visited, region), rfl⟩
    | c :: rest =>
      rw [floodFillAux]
      by_cases hbad : c.1 < 0 ∨ (w : ℤ) ≤ c.1 ∨ c.2 < 0 ∨ (h : ℤ) ≤ c.2
      · rw [if_pos hbad]
        refine ih rest visited region ?_
        unfold floodMeasure at hm ⊢
        simp only [List.length_cons] at hm
        omega
      · rw [if_neg hbad]
        show ∃ res, (if encPos w c ∈ visited ∨ data (encPos w c) ≠ 0 then
            floodFillAux data w h n rest visited region
          else
            floodFillAux data w h n
              ((c.1, c.2 - 1) :: (c.1, c.2 + 1) :: (c.1 - 1, c.2) :: (c.1 + 1, c.2) :: rest)
              (insert (encPos w c) visited) (insert (encPos w c) region)) = some res
        by_cases hsk : encPos w c ∈ visited ∨ data (encPos w c) ≠ 0
        · rw [if_pos hsk]
          refine ih rest visited region ?_
          unfold floodMeasure at hm ⊢
          simp only [List.length_cons] at hm
          omega
        · rw [if_neg hsk]
          refine ih _ _ _ ?_
          have hin : inBoundsC w h c := by
            unfold inBoundsC
            push_neg at hbad
            exact ⟨hbad.1, hbad.2.1, hbad.2.2.1, hbad.2.2.2⟩
          have hrange : encPos w c ∈ Finset.range (w * h) \ visited :=
            Finset.mem_sdiff.mpr
              ⟨Finset.mem_range.mpr (encPos_lt w h c hin), fun hv => hsk (Or.inl hv)⟩
          have hcard : (Finset.range (w * h) \ insert (encPos w c) visited).card
              = (Finset.range (w * h) \ visited).card - 1 := by
            rw [Finset.sdiff_insert]
            exact Finset.card_erase_of_mem hrange
          have hpos : 1 ≤ (Finset.range (w * h) \ visited).card :=
            Finset.card_pos.mpr ⟨encPos w c, hrange⟩
          unfold floodMeasure at hm ⊢
          simp only [List.length_cons] at hm ⊢
          omega

theorem floodFillAux_mono (data : ℕ → ℕ) (w h : ℕ) :
    ∀ (fuel : ℕ) (stack : List (ℤ × ℤ)) (visited region v' r' : Finset ℕ),
      floodFillAux data w h fuel stack visited region = some (v', r') → region ⊆ r' := by
  intro fuel
  induction fuel with
  | zero => intro stack visited region v' r' he; simp [floodFillAux] at he
  | succ n ih =>
    intro stack visited region v' r' he
    match stack with
    | [] =>
      rw [floodFillAux] at he
      simp only [Option.some.injEq, Prod.mk.injEq] at he
      exact he.2 ▸ subset_rfl
    | c :: rest =>
      rw [floodFillAux] at he
      by_cases hbad : c.1 < 0 ∨ (w : ℤ) ≤ c.1 ∨ c.2 < 0 ∨ (h : ℤ) ≤ c.2
      · rw [if_pos hbad] at he
        exact ih rest visited region v' r' he
      · rw [if_neg hbad] at he
        change (if encPos w c ∈ visited ∨ data (encPos w c) ≠ 0 then
            floodFillAux data w h n rest visited region
          else
            floodFillAux data w h n
              ((c.1, c.2 - 1) :: (c.1, c.2 + 1) :: (c.1 - 1, c.2) :: (c.1 + 1, c.2) :: rest)
              (insert (encPos w c) visited) (insert (encPos w c) region))
            = some (v', r') at he
        by_cases hsk : encPos w c ∈ visited ∨ data (encPos w c) ≠ 0
        · rw [if_pos hsk] at he
          exact ih rest visited region v' r' he
        · rw [if_neg hsk] at he
          exact subset_trans (Finset.subset_insert _ _) (ih _ _ _ _ _ he)

theorem FFInv_discard (data : ℕ → ℕ) (w h : ℕ) (v0 : Finset ℕ) (s : ℤ × ℤ)
    (hsfg : foregroundC data w h s) (hs0 : encPos w s ∉ v0)
    (c : ℤ × ℤ) (rest : List (ℤ × ℤ)) (visited region : Finset ℕ)
    (inv : FFInv data w h v0 s (c :: rest) visited region)
    (hdisc : ¬ foregroundC data w h c ∨ encPos w c ∈ visited) :
    FFInv data w h v0 s rest visited region := by
  obtain ⟨hA, hB, hC, hD, hE⟩ := inv
  refine ⟨hA, hB, ?_, ?_, ?_⟩
  · intro c' hc' hfg hnv
    exact hC c' (List.mem_cons_of_mem c hc') hfg hnv
  · intro c' hfg' hreg n hadj hnfg
    rcases hD c' hfg' hreg n hadj hnfg with hv | hstk
    · exact Or.inl hv
    · rcases List.mem_cons.mp hstk with heq | hr
      · rcases hdisc with hnf | hv
        · exact absurd (heq ▸ hnfg) hnf
        · exact Or.inl (heq ▸ hv)
      · exact Or.inr hr
  · rcases hE with hstk | hreg
    · rcases List.mem_cons.mp hstk with heq | hr
      · rcases hdisc with hnf | hv
        · exact absurd (heq ▸ hsfg) hnf
        · have hv' : encPos w s ∈ visited := heq ▸ hv
          rw [hA] at hv'
          rcases Finset.mem_union.mp hv' with h0 | hr
          · exact absurd h0 hs0
          · exact Or.inr hr
      · exact Or.inl hr
    · exact Or.inr hreg

theorem FFInv_visit (data : ℕ → ℕ) (w h : ℕ) (v0 : Finset ℕ) (s : ℤ × ℤ)
    (c : ℤ × ℤ) (rest : List (ℤ × ℤ)) (visited region : Finset ℕ)
    (inv : FFInv data w h v0 s (c :: rest) visited region)
    (hfg : foregroundC data w h c) (hnv : encPos w c ∉ visited) :
    FFInv data w h v0 s
      ((c.1, c.2 - 1) :: (c.1, c.2 + 1) :: (c.1 - 1, c.2) :: (c.1 + 1, c.2) :: rest)
      (insert (encPos w c) visited) (insert (encPos w c) region) := by
  obtain ⟨hA, hB, hC, hD, hE⟩ := inv
  have hreach : ReachAvoidC data w h v0 s c := hC c (List.mem_cons_self c rest) hfg hnv
  have hc_nv0 : encPos w c ∉ v0 := fun hv => hnv (hA ▸ Finset.mem_union_left _ hv)
  have hstep : ∀ n, adjC c n → foregroundC data w h n →
      encPos w n ∉ insert (encPos w c) visited → ReachAvoidC data w h v0 s n := by
    intro n hadj hnfg hnnv
    have hn_nv : encPos w n ∉ visited := fun hv => hnnv (Finset.mem_insert_of_mem hv)
    have hn_nv0 : encPos w n ∉ v0 := fun hv => hn_nv (hA ▸ Finset.mem_union_left _ hv)
    exact ⟨hreach.1, hreach.2.1,
      hreach.2.2.tail ⟨⟨hfg, hnfg, hadj⟩, hc_nv0, hn_nv0⟩⟩
  refine ⟨?_, ?_, ?_, ?_, ?_⟩
  · rw [hA, Finset.union_insert]
  · intro p hp
    rcases Finset.mem_insert.mp hp with heq | hold
    · exact ⟨c, hfg, heq.symm, hreach⟩
    · exact hB p hold
  · intro c' hc' hfg' hnv'
    have hnv'' : encPos w c' ∉ visited := fun hv => hnv' (Finset.mem_insert_of_mem hv)
    rcases List.mem_cons.mp hc' with h1 | hc'
    · exact hstep c' (h1 ▸ Or.inr (Or.inr (Or.inr rfl))) hfg' hnv'
    rcases List.mem_cons.mp hc' with h2 | hc'
    · exact hstep c' (h2 ▸ Or.inr (Or.inr (Or.inl rfl))) hfg' hnv'
    rcases List.mem_cons.mp hc' with h3 | hc'
    · exact hstep c' (h3 ▸ Or.inr (Or.inl rfl)) hfg' hnv'
    rcases List.mem_cons.mp hc' with h4 | hc'
    · exact hstep c' (h4 ▸ Or.inl rfl) hfg' hnv'
    · exact hC c' (List.mem_cons_of_mem c hc') hfg' hnv''
  · intro c' hfg' hreg' n hadj hnfg
    rcases Finset.mem_insert.mp hreg' with heq | hold
    · have hcc : c' = c := encPos_inj w h c' c hfg'.1 hfg.1 heq
      subst hcc
      right
      rcases hadj with h1 | h2 | h3 | h4
      · rw [h1]
        exact List.mem_cons_of_mem _ (List.mem_cons_of_mem _
          (List.mem_cons_of_mem _ (List.mem_cons_self _ _)))
      · rw [h2]
        exact List.mem_cons_of_mem _ (List.mem_cons_of_mem _
          (List.mem_cons_self _ _))
      · rw [h3]
        exact List.mem_cons_of_mem _ (List.mem_cons_self _ _)
      · rw [h4]
        exact List.mem_cons_self _ _
    · rcases hD c' hfg' hold n hadj hnfg with hv | hstk
      · exact Or.inl (Finset.mem_insert_of_mem hv)
      · rcases List.mem_cons.mp hstk with heq2 | hr
        · exact Or.inl (by rw [heq2]; exact Finset.mem_insert_self _ _)
        · refine Or.inr (List.mem_cons_of_mem _ (List.mem_cons_of_mem _
            (List.mem_cons_of_mem _ (List.mem_cons_of_mem _ hr))))
  · rcases hE with hstk | hreg
    · rcases List.mem_cons.mp hstk with heq | hr
      · right
        rw [heq]
        exact Finset.mem_insert_self _ _
      · left
        exact List.mem_cons_of_mem _ (List.mem_cons_of_mem _
          (List.mem_cons_of_mem _ (List.mem_cons_of_mem _ hr)))
    · exact Or.inr (Finset.mem_insert_of_mem hreg)

theorem floodFillAux_inv (data : ℕ → ℕ) (w h : ℕ) (v0 : Finset ℕ) (s : ℤ × ℤ)
    (hsfg : foregroundC data w h s) (hs0 : encPos w s ∉ v0) :
    ∀ (fuel : ℕ) (stack : List (ℤ × ℤ)) (visited region v' r' : Finset ℕ),
      floodFillAux data w h fuel stack visited region = some (v', r') →
      FFInv data w h v0 s stack visited region →
      FFInv data w h v0 s [] v' r' := by
  intro fuel
  induction fuel with
  | zero => intro stack visited region v' r' he _; simp [floodFillAux] at he
  | succ n ih =>
    intro stack visited region v' r' he inv
    match stack with
    | [] =>
      rw [floodFillAux] at he
      simp only [Option.some.injEq, Prod.mk.injEq] at he
      exact he.1 ▸ he.2 ▸ inv
    | c :: rest =>
      rw [floodFillAux] at he
      by_cases hbad : c.1 < 0 ∨ (w : ℤ) ≤ c.1 ∨ c.2 < 0 ∨ (h : ℤ) ≤ c.2
      · rw [if_pos hbad] at he
        refine ih rest visited region v' r' he
          (FFInv_discard data w h v0 s hsfg hs0 c rest visited region inv (Or.inl ?_))
        intro hfgc
        obtain ⟨⟨q1, q2, q3, q4⟩, _⟩ := hfgc
        rcases hbad with hb | hb | hb | hb <;> omega
      · rw [if_neg hbad] at he
        change (if encPos w c ∈ visited ∨ data (encPos w c) ≠ 0 then
            floodFillAux data w h n rest visited region
          else
            floodFillAux data w h n
              ((c.1, c.2 - 1) :: (c.1, c.2 + 1) :: (c.1 - 1, c.2) :: (c.1 + 1, c.2) :: rest)
              (insert (encPos w c) visited) (insert (encPos w c) region))
            = some (v', r') at he
        by_cases hsk : encPos w c ∈ visited ∨ data (encPos w c) ≠ 0
        · rw [if_pos hsk] at he
          refine ih rest visited region v' r' he
            (FFInv_discard data w h v0 s hsfg hs0 c rest visited region inv ?_)
          rcases hsk with hv | hd
          · exact Or.inr hv
          · exact Or.inl fun hfgc => hd hfgc.2
        · rw [if_neg hsk] at he
          push_neg at hsk
          have hin : inBoundsC w h c := by
            unfold inBoundsC
            push_neg at hbad
            exact ⟨hbad.1, hbad.2.1, hbad.2.2.1, hbad.2.2.2⟩
          exact ih _ _ _ v' r' he
            (FFInv_visit data w h v0 s c rest visited region inv ⟨hin, hsk.2⟩ hsk.1)

theorem reach_foreground (data : ℕ → ℕ) (w h : ℕ) (s c : ℤ × ℤ)
    (hr : ReachC data w h s c) : foregroundC data w h c := by
  obtain ⟨hs, hchain⟩ := hr
  induction hchain with
  | refl => exact hs
  | tail _ hstep _ => exact hstep.2.1

theorem reachAvoid_iff_reach (data : ℕ → ℕ) (w h : ℕ) (V : Finset ℕ) (s : ℤ × ℤ)
    (hfg : foregroundC data w h s)
    (hdisj : ∀ c, ReachC data w h s c → encPos w c ∉ V) :
    ∀ c, ReachAvoidC data w h V s c ↔ ReachC data w h s c := by
  intro c
  constructor
  · rintro ⟨h1, _, h3⟩
    exact ⟨h1, h3.mono fun a b hab => hab.1⟩
  · rintro ⟨h1, h3⟩
    refine ⟨h1, hdisj s ⟨h1, Relation.ReflTransGen.refl⟩, ?_⟩
    induction h3 with
    | refl => exact Relation.ReflTransGen.refl
    | tail hab hbc ih =>
      exact ih.tail ⟨hbc, hdisj _ ⟨h1, hab⟩, hdisj _ ⟨h1, hab.tail hbc⟩⟩

theorem floodMeasure_init_lt (w h : ℕ) (c : ℤ × ℤ) (visited : Finset ℕ) :
    floodMeasure w h [c] visited < floodFillFuel w h := by
  unfold floodMeasure floodFillFuel
  have hcard : (Finset.range (w * h) \ visited).card ≤ w * h :=
    le_trans (Finset.card_le_card Finset.sdiff_subset) (by simp)
  simp only [List.length_singleton]
  omega

theorem floodFill_spec (data : ℕ → ℕ) (w h : ℕ) (x y : ℤ) (visited : Finset ℕ)
    (hfg : foregroundC data w h (x, y)) (h0 : encPos w (x, y) ∉ visited) :
    (floodFill data w h x y visited).1 = visited ∪ (floodFill data w h x y visited).2 ∧
    ∀ p, p ∈ (floodFill data w h x y visited).2 ↔
      ∃ c, ReachAvoidC data w h visited (x, y) c ∧ encPos w c = p := by
  obtain ⟨res, hres⟩ := floodFillAux_total data w h (floodFillFuel w h) [(x, y)] visited ∅
    (floodMeasure_init_lt w h (x, y) visited)
  obtain ⟨v', r'⟩ := res
  have hff : floodFill data w h x y visited = (v', r') := by
    unfold floodFill
    rw [hres]
    rfl
  have hinv0 : FFInv data w h visited (x, y) [(x, y)] visited ∅ := by
    refine ⟨by simp, by simp, ?_, by simp, Or.inl (List.mem_cons_self _ _)⟩
    intro c hc hfgc hnv
    have hcx : c = (x, y) := by simpa using hc
    subst hcx
    exact ⟨hfgc, hnv, Relation.ReflTransGen.refl⟩
  obtain ⟨hA, hB, hC, hD, hE⟩ :=
    floodFillAux_inv data w h visited (x, y) hfg h0 (floodFillFuel w h)
      [(x, y)] visited ∅ v' r' hres hinv0
  rw [hff]
  refine ⟨hA, ?_⟩
  intro p
  constructor
  · intro hp
    obtain ⟨c, hcfg, hce, hcr⟩ := hB p hp
    exact ⟨c, hcr, hce⟩
  · rintro ⟨c, hcr, rfl⟩
    have hseed : encPos w (x, y) ∈ r' := by
      rcases hE with hstk | hreg
      · simp at hstk
      · exact hreg
    obtain ⟨hsfg', hs0', hchain⟩ := hcr
    induction hchain with
    | refl => exact hseed
    | tail hab hbc ih =>
      obtain ⟨⟨hfgb, hfgc2, hadj⟩, hbnv, hcnv⟩ := hbc
      rcases hD _ hfgb ih _ hadj hfgc2 with hv | hstk_mem
      · rw [hA] at hv
        rcases Finset.mem_union.mp hv with h1 | h2
        · exact absurd h1 hcnv
        · exact h2
      · simp at hstk_mem

/-! ### Claim theorems for the flood fill -/

/-- C1: for every mask and every foreground seed pixel whose connected
component is disjoint from the visited set (so in particular the seed
itself is unvisited — the visited set holds only positions of previously
completed components, which is how `findRegions` always calls
`floodFill`), the flood fill returns exactly the maximal 4-connected set
of foreground pixels reachable from the seed, and every position of the
returned set holds mask byte `0`. -/
theorem floodFill_finds_component (data : ℕ → ℕ) (w h : ℕ) (x y : ℤ)
    (visited : Finset ℕ) (hfg : foregroundC data w h (x, y))
    (hdisj : ∀ c, ReachC data w h (x, y) c → encPos w c ∉ visited) :
    (∀ p, p ∈ (floodFill data w h x y visited).2 ↔
        ∃ c, ReachC data w h (x, y) c ∧ encPos w c = p) ∧
    ∀ p ∈ (floodFill data w h x y visited).2, data p = 0 := by
  have h0 : encPos w (x, y) ∉ visited := hdisj (x, y) ⟨hfg, Relation.ReflTransGen.refl⟩
  have hs := floodFill_spec data w h x y visited hfg h0
  have hiff : ∀ p, p ∈ (floodFill data w h x y visited).2 ↔
      ∃ c, ReachC data w h (x, y) c ∧ encPos w c = p := by
    intro p
    rw [hs.2 p]
    constructor
    · rintro ⟨c, hra, hce⟩
      exact ⟨c, (reachAvoid_iff_reach data w h visited (x, y) hfg hdisj c).mp hra, hce⟩
    · rintro ⟨c, hrc, hce⟩
      exact ⟨c, (reachAvoid_iff_reach data w h visited (x, y) hfg hdisj c).mpr hrc, hce⟩
  refine ⟨hiff, ?_⟩
  intro p hp
  obtain ⟨c, hrc, hce⟩ := (hiff p).mp hp
  have := (reach_foreground data w h (x, y) c hrc).2
  rw [hce] at this
  exact this

/-- Witness for `floodFill_finds_component` on the all-foreground 1×1
mask with an empty visited set. -/
theorem floodFill_finds_component_check :
    (∀ p, p ∈ (floodFill (fun _ => 0) 1 1 0 0 ∅).2 ↔
        ∃ c, ReachC (fun _ => 0) 1 1 (0, 0) c ∧ encPos 1 c = p) ∧
    ∀ p ∈ (floodFill (fun _ => 0) 1 1 0 0 ∅).2, (fun _ => 0 : ℕ → ℕ) p = 0 :=
  floodFill_finds_component (fun _ => 0) 1 1 0 0 ∅ (by decide)
    (fun c _ => Finset.not_mem_empty _)

/-- C6: the flood-fill loop terminates on every input: with the fuel
budget `floodFillFuel`, the explicit-stack recursion always reaches the
empty stack and returns a result (the visited set strictly grows on every
productive iteration and is bounded by the `w*h` in-bounds positions), so
`floodFill` never takes its fallback branch. -/
theorem floodFill_terminates (data : ℕ → ℕ) (w h : ℕ) (x y : ℤ) (visited : Finset ℕ) :
    ∃ res, floodFillAux data w h (floodFillFuel w h) [(x, y)] visited ∅ = some res ∧
      floodFill data w h x y visited = res := by
  obtain ⟨res, hres⟩ := floodFillAux_total data w h (floodFillFuel w h) [(x, y)] visited ∅
    (floodMeasure_init_lt w h (x, y) visited)
  refine ⟨res, hres, ?_⟩
  unfold floodFill
  rw [hres]
  rfl

/-- C10: when the seed violates the precondition — out of bounds, a
background (non-zero) pixel, or already visited — the flood fill returns
the empty region and leaves the visited set unchanged (the source
discards the seed on the first loop iteration and the stack empties). -/
theorem floodFill_invalid_seed (data : ℕ → ℕ) (w h : ℕ) (x y : ℤ) (visited : Finset ℕ)
    (hbad : ¬ foregroundC data w h (x, y) ∨ encPos w (x, y) ∈ visited) :
    floodFill data w h x y visited = (visited, ∅) := by
  unfold floodFill floodFillFuel
  have e2 : 5 * (w * h) + 2 = (5 * (w * h) + 1) + 1 := rfl
  rw [e2, floodFillAux]
  by_cases hoob : (x, y).1 < 0 ∨ (w : ℤ) ≤ (x, y).1 ∨ (x, y).2 < 0 ∨ (h : ℤ) ≤ (x, y).2
  · rw [if_pos hoob, floodFillAux]
    rfl
  · rw [if_neg hoob]
    have hin : inBoundsC w h (x, y) := by
      unfold inBoundsC
      push_neg at hoob
      exact ⟨hoob.1, hoob.2.1, hoob.2.2.1, hoob.2.2.2⟩
    have hcond : encPos w (x, y) ∈ visited ∨ data (encPos w (x, y)) ≠ 0 := by
      rcases hbad with hnf | hv
      · exact Or.inr fun hd => hnf ⟨hin, hd⟩
      · exact Or.inl hv
    show (if encPos w (x, y) ∈ visited ∨ data (encPos w (x, y)) ≠ 0 then
        floodFillAux data w h (5 * (w * h) + 1) [] visited ∅
      else
        floodFillAux data w h (5 * (w * h) + 1)
          (((x, y).1, (x, y).2 - 1) :: ((x, y).1, (x, y).2 + 1) ::
            ((x, y).1 - 1, (x, y).2) :: ((x, y).1 + 1, (x, y).2) :: [])
          (insert (encPos w (x, y)) visited)
          (insert (encPos w (x, y)) ∅)).getD (visited, ∅) = (visited, ∅)
    rw [if_pos hcond, floodFillAux]
    rfl

/-- Witness for `floodFill_invalid_seed`: a background seed on an
all-background 1×1 mask. -/
theorem floodFill_invalid_seed_check :
    floodFill (fun _ => 255) 1 1 0 0 ∅ = (∅, ∅) :=
  floodFill_invalid_seed (fun _ => 255) 1 1 0 0 ∅ (Or.inl (by decide))

/-! ### Confidence bounds -/

theorem getBoundingBox_nonneg (region : Finset ℕ) (width : ℕ) :
    0 ≤ (getBoundingBox region width).width ∧ 0 ≤ (getBoundingBox region width).height := by
  have key : ∀ t : Finset ℕ, WithTop.untop' 0 t.min ≤ WithBot.unbot' 0 t.max := by
    intro t
    rcases t.eq_empty_or_nonempty with rfl | hne
    · simp
    · have h1 : t.min = ((t.min' hne : ℕ) : WithTop ℕ) := (Finset.coe_min' hne).symm
      have h2 : t.max = ((t.max' hne : ℕ) : WithBot ℕ) := (Finset.coe_max' hne).symm
      rw [h1, h2]
      exact Finset.le_max' t (t.min' hne) (t.min'_mem hne)
  constructor
  · have := key (region.image fun pos => pos % width)
    show (0 : ℤ) ≤ _ - _
    omega
  · have := key (region.image fun pos => pos / width)
    show (0 : ℤ) ≤ _ - _
    omega

theorem mem_of_mem_filterOverlapping (l : List Region) (r : Region)
    (h : r ∈ filterOverlappingRegions l) : r ∈ l := by
  obtain ⟨p, hp, hps⟩ := List.mem_map.mp h
  have hmem := (List.mem_filter.mp hp).1
  have hget := List.mem_enum_iff_get?.mp hmem
  exact hps ▸ List.get?_mem hget

theorem findRegions_fold_inv (data : ℕ → ℕ) (w h : ℕ) (cfg : DetectionConfig) :
    ∀ (cs : List (ℕ × ℕ)) (st : Finset ℕ × List Region),
      (∀ r ∈ st.2,
        r.confidence = (((r.width * r.height : ℤ) : ℚ) / cfg.maxArea) * 100 ∧
        0 ≤ r.width ∧ 0 ≤ r.height ∧ ((r.width * r.height : ℤ) : ℚ) ≤ cfg.maxArea) →
      ∀ r ∈ (cs.foldl (findRegionsStep data w h cfg) st).2,
        r.confidence = (((r.width * r.height : ℤ) : ℚ) / cfg.maxArea) * 100 ∧
        0 ≤ r.width ∧ 0 ≤ r.height ∧ ((r.width * r.height : ℤ) : ℚ) ≤ cfg.maxArea := by
  intro cs
  induction cs with
  | nil => exact fun st hst => hst
  | cons c rest ih =>
    intro st hst
    rw [List.foldl_cons]
    refine ih _ ?_
    intro r hr
    simp only [findRegionsStep] at hr
    split at hr
    case isFalse => exact hst r hr
    case isTrue h1 =>
      split at hr
      case isFalse => exact hst r hr
      case isTrue h2 =>
        rcases List.mem_append.mp hr with hold | hnew
        · exact hst r hold
        · have hre : r = { getBoundingBox (floodFill data w h (c.1 : ℤ) (c.2 : ℤ) st.1).2 w
              with confidence :=
                (((getBoundingBox (floodFill data w h (c.1 : ℤ) (c.2 : ℤ) st.1).2 w).width *
                  (getBoundingBox (floodFill data w h (c.1 : ℤ) (c.2 : ℤ) st.1).2 w).height : ℤ) : ℚ)
                  / cfg.maxArea * 100 } := by
            simpa using hnew
          obtain ⟨hg1, hg2⟩ := getBoundingBox_nonneg
            (floodFill data w h (c.1 : ℤ) (c.2 : ℤ) st.1).2 w
          subst hre
          exact ⟨by ring, hg1, hg2, h2.2.1⟩

/-- C5: for a positive `maxArea`, every region returned by `findRegions`
carries `confidence = (width*height / maxArea) * 100`, and this value lies
in `[0, 100]` (the upper bound following from the `area ≤ maxArea`
filter, the lower one from the nonnegativity of the bounding box). -/
theorem findRegions_confidence (data : ℕ → ℕ) (w h : ℕ) (cfg : DetectionConfig)
    (hmax : 0 < cfg.maxArea) :
    ∀ r ∈ findRegions data w h cfg,
      r.confidence = (((r.width * r.height : ℤ) : ℚ) / cfg.maxArea) * 100 ∧
      0 ≤ r.confidence ∧ r.confidence ≤ 100 := by
  intro r hr
  unfold findRegions at hr
  have hr' : r ∈ ((scanPositions w h).foldl (findRegionsStep data w h cfg) (∅, [])).2 :=
    mem_of_mem_filterOverlapping _ r hr
  obtain ⟨hconf, hw0, hh0, harea⟩ :=
    findRegions_fold_inv data w h cfg (scanPositions w h) (∅, []) (by simp) r hr'
  have hA0 : (0 : ℚ) ≤ ((r.width * r.height : ℤ) : ℚ) := by
    have : (0 : ℤ) ≤ r.width * r.height := mul_nonneg hw0 hh0
    exact_mod_cast this
  refine ⟨hconf, ?_, ?_⟩
  · rw [hconf]
    exact mul_nonneg (div_nonneg hA0 hmax.le) (by norm_num)
  · rw [hconf]
    calc (((r.width * r.height : ℤ) : ℚ) / cfg.maxArea) * 100 ≤ 1 * 100 :=
      mul_le_mul_of_nonneg_right ((div_le_one hmax).mpr harea) (by norm_num)
    _ = 100 := by norm_num

/-- Witness for `findRegions_confidence` on the Scenario 1 mask: the
single detected region (the 2×2 block, reported with `width = height = 1`
by the source's bounding box) has confidence `10 ∈ [0, 100]`. -/
theorem findRegions_confidence_check :
    (Region.mk 1 1 1 1 10).confidence
        = ((((Region.mk 1 1 1 1 10).width * (Region.mk 1 1 1 1 10).height : ℤ) : ℚ)
            / configScenario1.maxArea) * 100 ∧
      0 ≤ (Region.mk 1 1 1 1 10).confidence ∧ (Region.mk 1 1 1 1 10).confidence ≤ 100 :=
  findRegions_confidence maskScenario1 5 5 configScenario1
    (by norm_num [configScenario1]) (Region.mk 1 1 1 1 10)
    (by with_unfolding_all decide)
